import Mathlib

/-!
Verification development for the sonicrabMQ message broker.

The definitions below are a shallow embedding of the Rust sources:
`src/storage.rs` (segmented log storage engine), `src/main.rs`
(connection handler), `src/fileclear.rs` (retention sweeper) and
`src/config.rs` (size parser).  Files and memory maps are modelled as
lists of bytes (natural numbers below 256) or lists of decoded index
entries; machine integers are modelled as `Nat` with explicit
`% 2 ^ 32` / `% 2 ^ 64` where the Rust code truncates.
-/

namespace SonicrabMQ

/-- Big-endian encoding of `n` into `w` bytes, as in `u32::to_be_bytes` /
`u64::to_be_bytes` (truncates `n` modulo `256 ^ w`). -/
def beBytes : Nat → Nat → List Nat
  | 0, _ => []
  | w + 1, n => beBytes w (n / 256) ++ [n % 256]

/-- Big-endian decoding of a byte list, as in `read_u32::<BigEndian>` /
`read_u64::<BigEndian>`. -/
def readBE (bs : List Nat) : Nat := bs.foldl (fun acc b => acc * 256 + b) 0

theorem beBytes_length (w n : Nat) : (beBytes w n).length = w := by
  induction w generalizing n with
  | zero => rfl
  | succ w ih => simp [beBytes, ih]

theorem readBE_append (l₁ l₂ : List Nat) :
    readBE (l₁ ++ l₂) = List.foldl (fun acc b => acc * 256 + b) (readBE l₁) l₂ := by
  simp [readBE, List.foldl_append]

theorem readBE_beBytes (w n : Nat) : readBE (beBytes w n) = n % 256 ^ w := by
  induction w generalizing n with
  | zero => simp [beBytes, readBE, Nat.mod_one]
  | succ w ih =>
    have h := readBE_append (beBytes w (n / 256)) [n % 256]
    simp only [beBytes, h, ih, List.foldl_cons, List.foldl_nil]
    have h2 : n % (256 * 256 ^ w) = n % 256 + 256 * (n / 256 % 256 ^ w) := Nat.mod_mul
    rw [pow_succ, mul_comm (256 ^ w) 256]
    omega

/-! ### Storage engine data model (`src/storage.rs`) -/

/-- A decoded 12-byte index slot: 8 bytes big-endian `start`, 4 bytes
big-endian `size` (`struct IndexEntry` in `storage.rs`).  An all-zero
slot decodes to `⟨0, 0⟩` and the big-endian encoding of values in range
is injective, so slots are modelled at the decoded level. -/
structure IndexEntry where
  start : Nat
  size : Nat
  deriving DecidableEq, Repr

/-- A cached sealed segment (`struct FileEntry` in `storage.rs`):
its base offset, the bytes of its read-only data file, and its decoded
memory-mapped index. -/
structure FileEntry where
  base_offset : Nat
  data : List Nat
  index : List IndexEntry
  deriving DecidableEq, Repr

/-- The per-broker segment store (`struct DataStorage` in `storage.rs`).
`data` is the byte content of the active data file (so the `data_len`
atomic is `data.length`), `index` is the decoded content of the active
index file (so the index file length is `12 * index.length`), and
`files` is the cached sealed-entry list in push order. -/
structure DataStorage where
  base_offset : Nat
  position_offset : Nat
  data : List Nat
  index : List IndexEntry
  files : List FileEntry
  max_file_size : Nat
  pull_max_limit : Nat
  cache_limit : Nat
  deriving DecidableEq, Repr

/-- `INITIAL_INDEX_SIZE` is `1024` twelve-byte slots. -/
def INITIAL_INDEX_SLOTS : Nat := 1024

/-- `INDEX_EXPANSION_SIZE` is `512` twelve-byte slots. -/
def INDEX_EXPANSION_SLOTS : Nat := 512

/-- A fresh broker as produced by `DataStorage::new` on an empty
directory: `create_new_files(0)` creates an empty data file and a
preallocated all-zero index of `INITIAL_INDEX_SIZE` bytes. -/
def freshStorage (maxFileSize pullMaxLimit cacheLimit : Nat) : DataStorage where
  base_offset := 0
  position_offset := 0
  data := []
  index := List.replicate INITIAL_INDEX_SLOTS ⟨0, 0⟩
  files := []
  max_file_size := maxFileSize
  pull_max_limit := pullMaxLimit
  cache_limit := cacheLimit

/-- `DataStorage::read_index` at byte position `12 * slot`: decodes the
slot of the active index map.  Out-of-range reads would fault in the
Rust code; the model returns the all-zero entry. -/
def readIndex (idx : List IndexEntry) (slot : Nat) : IndexEntry :=
  (idx[slot]?).getD ⟨0, 0⟩

/-- `DataStorage::append_data`.  Mirrors `storage.rs` lines 275-348:
1. if `data_len + data.len() > max_file_size`, create a new active
   data/index pair at `base = position` (`create_new_files(position)`),
   evict the oldest cached sealed entry when the cache is full
   (`files.remove(0)`), and push the previous active segment as a sealed
   `FileEntry`;
2. if `(position + 2 - base_offset) * 12` exceeds the index file length,
   extend the index by `INDEX_EXPANSION_SIZE` zero bytes;
3. append the 12-byte header (`be32 len`, `be64 position`) and the
   payload to the data file;
4. write the slot `(position - base_offset)` as `(be64 start, be32 (12 + len))`
   (the `u32` cast truncates modulo `2 ^ 32`) and zero the following slot;
5. increment `position`. -/
def appendData (s : DataStorage) (p : List Nat) : DataStorage :=
  let s1 : DataStorage :=
    if s.max_file_size < s.data.length + p.length then
      { s with
          data := []
          index := List.replicate INITIAL_INDEX_SLOTS ⟨0, 0⟩
          files := (if s.cache_limit < s.files.length + 1 then s.files.drop 1 else s.files)
            ++ [⟨s.base_offset, s.data, s.index⟩]
          base_offset := s.position_offset }
    else s
  let base := s1.base_offset
  let pos := s1.position_offset
  let idx0 :=
    if s1.index.length * 12 < (pos + 2 - base) * 12 then
      s1.index ++ List.replicate INDEX_EXPANSION_SLOTS ⟨0, 0⟩
    else s1.index
  let start := s1.data.length
  { s1 with
      data := s1.data ++ (beBytes 4 p.length ++ beBytes 8 pos ++ p)
      index := (idx0.set (pos - base) ⟨start, (12 + p.length) % 2 ^ 32⟩).set (pos - base + 1) ⟨0, 0⟩
      position_offset := pos + 1 }

/-- The offset resolution at the top of `DataStorage::sendfile`
(`storage.rs` lines 358-362): a requested offset of `0` on a non-empty
broker means "the latest record", `position - 1`. -/
def resolveOffset (since_offset position : Nat) : Nat :=
  if since_offset = 0 ∧ 0 < position then position - 1 else since_offset

/-- Base offset of the `i`-th cached sealed entry (`guard[i].base_offset`);
out-of-range indices never arise on the paths the Rust code takes. -/
def baseAt (fs : List FileEntry) (i : Nat) : Nat :=
  ((fs[i]?).map FileEntry.base_offset).getD 0

/-- The sealed-entry search loop of `DataStorage::sendfile`
(`storage.rs` lines 394-402), with the iteration count made explicit:
`r` iterations remain, `i` is the loop variable, `pre` trails it.
Selects `guard[pre]` at the first `i` with
`offset < guard[i].base_offset && offset > guard[pre].base_offset`. -/
def selectLoopGo (fs : List FileEntry) (offset : Nat) : Nat → Nat → Nat → Option Nat
  | 0, _, _ => none
  | r + 1, i, pre =>
    if offset < baseAt fs i ∧ baseAt fs pre < offset then some pre
    else selectLoopGo fs offset r (i + 1) i

/-- The full sealed-entry selection of `DataStorage::sendfile`
(`storage.rs` lines 389-408): run the loop over all `len` entries
starting at `i = 0, pre = 0`; if it selects nothing, fall back to the
last entry when `offset < base_offset && offset >= guard[len - 1].base_offset`.
Returns the index of the selected cached entry. -/
def selectSealed (fs : List FileEntry) (base_offset offset : Nat) : Option Nat :=
  if 0 < fs.length then
    match selectLoopGo fs offset fs.length 0 0 with
    | some pre => some pre
    | none =>
      if offset < base_offset ∧ baseAt fs (fs.length - 1) ≤ offset then
        some (fs.length - 1)
      else none
  else none

/-- Where `sendfile` located the record: the active segment or a cached
sealed segment with the given base. -/
inductive PullSource where
  | active : PullSource
  | sealed : Nat → PullSource
  deriving DecidableEq, Repr

/-- The outcome of a successful `DataStorage::sendfile` call: the
resolved offset, the segment used, the index entry read, the length of
that segment's data file, the byte count handed to `call_sendfile`, and
the bytes of the data file actually covered by that range. -/
structure PullResult where
  offset : Nat
  src : PullSource
  entry : IndexEntry
  fileLen : Nat
  size : Nat
  bytes : List Nat
  deriving DecidableEq, Repr

/-- `DataStorage::sendfile` (`storage.rs` lines 351-432).  Resolves the
offset, reads the index slot from the active segment when
`offset >= base_offset && position > offset`, otherwise searches the
cached sealed entries; applies the pull-limit policy (one record when
the tail from `start` exceeds `pull_max_limit`, the whole tail
otherwise) and transfers bytes `[start, start + size)` of the located
data file.  The failure of the sealed lookup is the
`io::Error` with message `"index file not match"`. -/
def sendfile (s : DataStorage) (since_offset : Nat) : Except String PullResult :=
  let offset := resolveOffset since_offset s.position_offset
  if s.base_offset ≤ offset ∧ offset < s.position_offset then
    let entry := readIndex s.index (offset - s.base_offset)
    let len := s.data.length
    let size := if s.pull_max_limit < len - entry.start then entry.size else len - entry.start
    .ok ⟨offset, .active, entry, len, size, (s.data.drop entry.start).take size⟩
  else
    match selectSealed s.files s.base_offset offset with
    | some j =>
      let e := (s.files[j]?).getD ⟨0, [], []⟩
      let entry := readIndex e.index (offset - e.base_offset)
      let len := e.data.length
      let size := if s.pull_max_limit < len - entry.start then
          entry.start + entry.size - entry.start
        else len - entry.start
      .ok ⟨offset, .sealed e.base_offset, entry, len, size, (e.data.drop entry.start).take size⟩
    | none => .error "index file not match"

/-! ### Connection handler (`src/main.rs`) -/

/-- `Broker::send_messages_since` (`main.rs` lines 47-55): call
`sendfile`; on error only log it; in every case write the terminating
4-byte zero frame and return `Ok(())` so the connection keeps serving.
The result is the byte stream written to the socket (`some` because the
handler does not propagate the storage error). -/
def send_messages_since (s : DataStorage) (last_id : Nat) : Option (List Nat) :=
  let sent := match sendfile s last_id with
    | .ok r => r.bytes
    | .error _ => []
  some (sent ++ beBytes 4 0)

/-- Append a whole sequence of payloads (repeated `append_data` calls). -/
def appendList (s : DataStorage) (ps : List (List Nat)) : DataStorage :=
  ps.foldl appendData s

/-- The on-disk bytes of one record: 4-byte big-endian payload length,
8-byte big-endian logical offset, then the payload. -/
def recordBytes (pos : Nat) (p : List Nat) : List Nat :=
  beBytes 4 p.length ++ beBytes 8 pos ++ p

/-- The data-file bytes of consecutive records for payloads `ps`
starting at logical offset `pos`. -/
def recordsFrom (pos : Nat) : List (List Nat) → List Nat
  | [] => []
  | p :: rest => recordBytes pos p ++ recordsFrom (pos + 1) rest

/-- Client-side parsing of a PULL byte stream (spec §6): read a 4-byte
big-endian length; `0` terminates the batch; otherwise skip the 8-byte
offset and take that many payload bytes, then continue.  Fuel-indexed;
`parsePayloads` supplies enough fuel for the whole stream. -/
def parsePayloadsF : Nat → List Nat → Option (List (List Nat))
  | 0, _ => none
  | fuel + 1, bs =>
    if bs.length < 4 then none
    else
      let n := readBE (bs.take 4)
      if n = 0 then some []
      else if bs.length < 12 + n then none
      else (parsePayloadsF fuel (bs.drop (12 + n))).map (((bs.drop 12).take n) :: ·)

/-- Parse a complete PULL response stream into its record payloads. -/
def parsePayloads (bs : List Nat) : Option (List (List Nat)) :=
  parsePayloadsF (bs.length + 1) bs

/-! ### The zero-copy transfer loop (`call_sendfile`, `storage.rs` 435-454) -/

/-- One outcome of the OS `sendfile` primitive: `ok n` (sent `n` bytes)
or `err eagain` (failed; `eagain` tells whether `errno == EAGAIN`). -/
inductive SfOutcome where
  | ok : Nat → SfOutcome
  | err : Bool → SfOutcome
  deriving DecidableEq, Repr

/-- The `loop` in `call_sendfile`, driven by the trace of outcomes the
OS primitive produces: `Ok(0)` breaks out returning the remaining
count; `Ok(n)` subtracts `n` from the remaining count and continues;
`Err(_)` leaves the state untouched and continues — the `EAGAIN` test
only reaches an explicit `continue`, and every other error falls
through to the bottom of the `loop` as well.  `none` means the trace
ended with the loop still running. -/
def callSendfileLoop : List SfOutcome → Nat → Option Nat
  | [], _ => none
  | SfOutcome.ok n :: rest, size => if n = 0 then some size else callSendfileLoop rest (size - n)
  | SfOutcome.err _ :: rest, size => callSendfileLoop rest size

/-- `call_sendfile(sock_fd, in_fd, start, size)`: runs the loop with
remaining count `size` and returns the final remaining count. -/
def call_sendfile (trace : List SfOutcome) (size : Nat) : Option Nat :=
  callSendfileLoop trace size

/-- What the `sendfile` method reports for the transfer:
`Ok(size - _size)`, the number of bytes actually sent. -/
def sentBytes (trace : List SfOutcome) (size : Nat) : Option Nat :=
  (call_sendfile trace size).map (fun remaining => size - remaining)

/-! ### Cold-restart recovery (`initialize_files`, `storage.rs` 128-203) -/

/-- The all-zero index slot. -/
def zeroEntry : IndexEntry := ⟨0, 0⟩

/-- The scan loop of `initialize_files` (lines 182-196): walk the
active index slot by slot; at the first all-zero slot `k` set
`position = last_offset + k` (the code's `index > 0` and `index == 0`
branches both compute this) and stop.  If no all-zero slot occurs
within the index, `position` keeps its initial value `0`. -/
def scanPosition : List IndexEntry → Nat → Nat → Nat
  | [], _, _ => 0
  | e :: rest, k, lastOffset =>
    if e.start = 0 ∧ e.size = 0 then lastOffset + k
    else scanPosition rest (k + 1) lastOffset

/-- The active index as `initialize_files` sees it: the restart path
calls `create_new_files(last_offset)`, and `create_index_file` re-opens
the existing index file and calls `set_len(INITIAL_INDEX_SIZE)`, which
truncates it to 1024 slots (or zero-extends it if shorter). -/
def restartIndexView (onDisk : List IndexEntry) : List IndexEntry :=
  onDisk.take INITIAL_INDEX_SLOTS
    ++ List.replicate (INITIAL_INDEX_SLOTS - onDisk.length) zeroEntry

/-- The `position_offset` recovered by `initialize_files` given the
on-disk content of the active index and its base (`last_offset`). -/
def restartPosition (onDiskActiveIndex : List IndexEntry) (lastOffset : Nat) : Nat :=
  scanPosition (restartIndexView onDiskActiveIndex) 0 lastOffset

/-- Index of the first all-zero slot of an on-disk index (the
high-water mark the spec describes). -/
def firstZeroSlot (idx : List IndexEntry) : Option Nat :=
  idx.findIdx? fun e => e.start == 0 && e.size == 0

/-! ### Retention sweeper (`src/fileclear.rs`) -/

/-- `Path::extension` of a plain file name: the portion after the last
`.`, or `none` when there is no `.` or the name starts with its only
`.`. -/
def rustExtension (f : String) : Option String :=
  let parts := f.splitOn "."
  if parts.length ≤ 1 then none
  else if parts.headI = "" ∧ parts.length = 2 then none
  else parts.getLast?

/-- The sweeper's file filter (`fileclear.rs` lines 24-27):
extension equal to `"index"` or `"data"`. -/
def isLogFile (f : String) : Bool :=
  match rustExtension f with
  | some e => e == "index" || e == "data"
  | none => false

/-- `clean_directory` (`fileclear.rs` lines 17-44) over the list of
file names in one broker directory: collect the `.index`/`.data`
files, sort them by name, and when more than `max_files` remain delete
the oldest `len - max_files` of them.  The result is the directory
content after the deletions. -/
def cleanDirectory (files : List String) (maxFiles : Nat) : List String :=
  let matched := files.filter isLogFile
  let sorted := matched.mergeSort (fun a b => a ≤ b)
  let toDelete := if maxFiles < sorted.length then sorted.take (sorted.length - maxFiles) else []
  files.filter fun f => !(toDelete.contains f)

/-! ### Size parser (`parse_size`, `src/config.rs` 27-43) -/

/-- ASCII digit test (`\d` over the inputs at hand). -/
def isDigitChar (c : Char) : Bool := '0' ≤ c ∧ c ≤ '9'

/-- Membership in the regex character class `[kKmMgG]`. -/
def isUnitChar (c : Char) : Bool :=
  c = 'k' ∨ c = 'K' ∨ c = 'm' ∨ c = 'M' ∨ c = 'g' ∨ c = 'G'

/-- Leftmost match of the unanchored regex `(\d+)([kKmMgG]+)`: scan for
the first position whose maximal digit run is immediately followed by
at least one unit letter; capture the digit run and the maximal unit
run.  (Restarting one character later inside a failed digit run fails
the same way, so advancing one character at a time is the exact regex
behaviour.) -/
def findMatch : List Char → Option (List Char × List Char)
  | [] => none
  | c :: rest =>
    if isDigitChar c then
      let ds := (c :: rest).takeWhile isDigitChar
      let after := (c :: rest).dropWhile isDigitChar
      let us := after.takeWhile isUnitChar
      if us.isEmpty then findMatch rest else some (ds, us)
    else findMatch rest

/-- Numeric value of a digit character. -/
def charVal (c : Char) : Nat := c.toNat - 48

/-- Value of a digit run, as `str::parse` computes it. -/
def natOfDigits (ds : List Char) : Nat :=
  ds.foldl (fun acc c => acc * 10 + charVal c) 0

/-- `usize::MAX + 1` on the 64-bit targets this server builds for. -/
def USIZE_BOUND : Nat := 2 ^ 64

/-- `parse_size` (`config.rs` lines 27-43): find the first
`(\d+)([kKmMgG]+)` match anywhere in the input; parse the digits
(overflow of `usize` is a parse failure); lowercase the unit group and
map `"k"`/`"m"`/`"g"` to the binary multipliers, any longer unit run
being `"Unknown unit"`; no match at all is `"Invalid format"`.
The multiplication wraps like release-mode `usize` arithmetic. -/
def parse_size (s : List Char) : Except String Nat :=
  match findMatch s with
  | none => .error "Invalid format"
  | some (ds, us) =>
    if natOfDigits ds < USIZE_BOUND then
      match us.map Char.toLower with
      | ['k'] => .ok (natOfDigits ds * 1024 % USIZE_BOUND)
      | ['m'] => .ok (natOfDigits ds * (1024 * 1024) % USIZE_BOUND)
      | ['g'] => .ok (natOfDigits ds * (1024 * 1024 * 1024) % USIZE_BOUND)
      | _ => .error "Unknown unit"
    else .error "Failed to parse number"

/-! ### Concrete states used by witnesses and counterexamples -/

/-- A fresh broker with roomy limits after pushing `b"a"`, `b"bb"`,
`b"ccc"` (the S2 scenario of the spec). -/
def st3 : DataStorage :=
  appendList (freshStorage 1000000 1000000 10) [[97], [98, 98], [99, 99, 99]]

/-! ### Shared lemmas about the sealed-entry search loop -/

theorem selectLoopGo_none_of_le (fs : List FileEntry) (off : Nat)
    (hall : ∀ j, j < fs.length → baseAt fs j ≤ off) :
    ∀ r i pre, i + r ≤ fs.length → selectLoopGo fs off r i pre = none := by
  intro r
  induction r with
  | zero => intro i pre _; rfl
  | succ r ih =>
    intro i pre hir
    rw [selectLoopGo, if_neg, ih (i + 1) i (by omega)]
    intro hcond
    exact absurd hcond.1 (by have := hall i (by omega); omega)

/-! ### Claim C2 — offset resolution on PULL -/

/-- Claim C2: for every broker state with `position > 0`, a `sendfile`
call with requested offset `0` resolves to offset `position - 1` (so it
behaves exactly like a request for the latest record); for any non-zero
requested offset, or when `position = 0`, the requested offset is used
unchanged. -/
theorem pull_offset_resolution (s : DataStorage) (o : Nat) :
    (0 < s.position_offset →
      sendfile s 0 = sendfile s (s.position_offset - 1) ∧
      resolveOffset 0 s.position_offset = s.position_offset - 1) ∧
    (o ≠ 0 ∨ s.position_offset = 0 → resolveOffset o s.position_offset = o) := by
  constructor
  · intro hpos
    have h1 : resolveOffset 0 s.position_offset = s.position_offset - 1 := by
      rw [resolveOffset, if_pos ⟨rfl, hpos⟩]
    have h2 : resolveOffset (s.position_offset - 1) s.position_offset =
        s.position_offset - 1 := by
      rw [resolveOffset]; exact ite_self _
    refine ⟨?_, h1⟩
    rw [sendfile, sendfile, h1, h2]
  · intro ho
    rw [resolveOffset, if_neg]
    rintro ⟨rfl, hpos⟩
    rcases ho with h | h
    · exact h rfl
    · omega

/-- Witness for C2 at the concrete S2 broker (`position = 3`) and the
non-zero requested offset `5`. -/
theorem pull_offset_resolution_witness :
    (sendfile st3 0 = sendfile st3 (st3.position_offset - 1) ∧
      resolveOffset 0 st3.position_offset = st3.position_offset - 1) ∧
    resolveOffset 5 st3.position_offset = 5 :=
  ⟨(pull_offset_resolution st3 5).1 (by decide),
   (pull_offset_resolution st3 5).2 (Or.inl (by decide))⟩

/-! ### Claim C5 — the pull-limit policy -/

/-- Claim C5: every successful `sendfile` call that located index entry
`(start, size)` in a data file of length `L` selects `size` bytes for
transfer when `L - start > pull_max_limit` and `L - start` bytes
otherwise, in the active-segment case and in the sealed-segment case
alike; and the selected range really covers that many bytes of the
file whenever it lies inside the file. -/
theorem take_drop_length {α : Type} (l : List α) (a b : Nat) (h : a + b ≤ l.length) :
    ((l.drop a).take b).length = b := by
  rw [List.length_take, List.length_drop]
  exact Nat.min_eq_left (by omega)

theorem ite_sub_size (c : Prop) [Decidable c] (st sz L : Nat) :
    (if c then st + sz - st else L - st) = if c then sz else L - st := by
  split <;> omega

theorem pull_limit_policy (s : DataStorage) (o : Nat) (r : PullResult)
    (h : sendfile s o = .ok r) :
    r.size = (if s.pull_max_limit < r.fileLen - r.entry.start then r.entry.size
      else r.fileLen - r.entry.start) ∧
    (r.entry.start + r.size ≤ r.fileLen → r.bytes.length = r.size) := by
  simp only [sendfile] at h
  split at h
  · injection h with h'
    subst h'
    exact ⟨rfl, fun hle => take_drop_length _ _ _ hle⟩
  · split at h
    · injection h with h'
      subst h'
      exact ⟨ite_sub_size _ _ _ _, fun hle => take_drop_length _ _ _ hle⟩
    · exact Except.noConfusion h

/-- The result `sendfile st3 1` computes: record `1` at bytes
`[13, 27)` of the active file, streamed together with everything after
it (29 bytes) because the tail is below `pull_max_limit`. -/
def pullResultAt : PullResult :=
  ⟨1, .active, ⟨13, 14⟩, 42, 29, (st3.data.drop 13).take 29⟩

set_option maxRecDepth 100000 in
/-- Witness for C5: the successful pull of offset `1` on the S2 broker,
whose located entry is `(13, 14)` in a 42-byte data file. -/
theorem pull_limit_policy_witness :
    pullResultAt.size =
      (if st3.pull_max_limit < pullResultAt.fileLen - pullResultAt.entry.start
        then pullResultAt.entry.size
        else pullResultAt.fileLen - pullResultAt.entry.start) ∧
    pullResultAt.bytes.length = pullResultAt.size :=
  ⟨(pull_limit_policy st3 1 pullResultAt rfl).1,
   (pull_limit_policy st3 1 pullResultAt rfl).2 (by decide)⟩

/-! ### Claim C7 — error handling in the zero-copy loop -/

/-- Claim C7 counterexample: the claim says a non-`EAGAIN` `sendfile`
failure is propagated up as an error and the transfer does not
continue.  In `call_sendfile` the non-`EAGAIN` arm does nothing and the
`loop` runs again: after a non-`EAGAIN` failure (`err false`) the loop
keeps going, sends the remaining 3 bytes on the next iteration, and the
method reports a fully successful 3-byte transfer — no error is ever
propagated (`call_sendfile` cannot even return one). -/
theorem call_sendfile_continues_after_error :
    call_sendfile [SfOutcome.err false, SfOutcome.ok 3, SfOutcome.ok 0] 3 = some 0 ∧
    sentBytes [SfOutcome.err false, SfOutcome.ok 3, SfOutcome.ok 0] 3 = some 3 := by
  decide

/-- Claim C7 as amended: `EAGAIN` failures are retried in place, but so
is every other `sendfile` failure — the loop state is unchanged by any
`Err` outcome and no error is propagated; the loop terminates exactly
when the primitive returns `0`, and the `sendfile` method then reports
`size` minus the bytes left unsent at loop exit. -/
theorem call_sendfile_retry_behavior (t : List SfOutcome) (size n : Nat) (e : Bool)
    (hn : n ≠ 0) :
    call_sendfile (SfOutcome.err e :: t) size = call_sendfile t size ∧
    call_sendfile (SfOutcome.ok 0 :: t) size = some size ∧
    call_sendfile (SfOutcome.ok n :: t) size = call_sendfile t (size - n) ∧
    sentBytes t size = (call_sendfile t size).map (fun remaining => size - remaining) := by
  refine ⟨rfl, by simp [call_sendfile, callSendfileLoop], ?_, rfl⟩
  rw [call_sendfile, callSendfileLoop, if_neg hn]
  rfl

/-- Witness for C7 at a concrete trace (`n = 2` bytes sent, error flag
`false`, remainder trace empty, `size = 5`). -/
theorem call_sendfile_retry_behavior_witness :
    call_sendfile [SfOutcome.err false] 5 = call_sendfile [] 5 ∧
    call_sendfile [SfOutcome.ok 0] 5 = some 5 ∧
    call_sendfile [SfOutcome.ok 2] 5 = call_sendfile [] (5 - 2) ∧
    sentBytes [] 5 = (call_sendfile [] 5).map (fun remaining => 5 - remaining) :=
  call_sendfile_retry_behavior [] 5 2 false (by decide)

/-! ### Claim C10 — lookup misses are logged, the sentinel still sent -/

/-- Claim C10: when the resolved offset has no locatable record — the
broker is empty (`position = 0`), or the resolved offset is at or past
`position` with every cached sealed base below the active base —
`sendfile` fails with the `"index file not match"` I/O error, and the
connection handler merely logs it: the 4-byte zero sentinel is still
the entire socket output and `send_messages_since` still returns
success, keeping the connection open. -/
theorem lookup_miss_keeps_connection (s : DataStorage) (o : Nat)
    (hbp : s.base_offset ≤ s.position_offset)
    (hfb : ∀ e ∈ s.files, e.base_offset < s.base_offset)
    (hres : s.position_offset ≤ resolveOffset o s.position_offset) :
    sendfile s o = .error "index file not match" ∧
    send_messages_since s o = some (beBytes 4 0) := by
  have hall : ∀ j, j < s.files.length → baseAt s.files j ≤ resolveOffset o s.position_offset := by
    intro j hj
    have hmem : s.files[j] ∈ s.files := List.getElem_mem hj
    have hlt := hfb _ hmem
    have : baseAt s.files j = (s.files[j]).base_offset := by
      simp [baseAt, List.getElem?_eq_getElem hj]
    omega
  have hsel : selectSealed s.files s.base_offset (resolveOffset o s.position_offset) = none := by
    rw [selectSealed]
    split
    · rw [selectLoopGo_none_of_le _ _ hall s.files.length 0 0 (by omega)]
      rw [if_neg]
      intro hcond
      omega
    · rfl
  have hsf : sendfile s o = .error "index file not match" := by
    rw [sendfile]
    rw [if_neg (by intro hcond; omega), hsel]
  refine ⟨hsf, ?_⟩
  rw [send_messages_since, hsf]
  rfl

/-- Witness for C10: a PULL of offset `0` on a completely fresh broker
(`position = 0`, no sealed segments) — the socket sees only the
4-byte zero sentinel. -/
theorem lookup_miss_keeps_connection_witness :
    sendfile (freshStorage 100 100 10) 0 = .error "index file not match" ∧
    send_messages_since (freshStorage 100 100 10) 0 = some (beBytes 4 0) :=
  lookup_miss_keeps_connection (freshStorage 100 100 10) 0 (by decide)
    (by decide) (by decide)

/-! ### Claim C8 — sweeper idempotence -/

theorem filter_comm {α : Type} (l : List α) (p q : α → Bool) :
    (l.filter p).filter q = (l.filter q).filter p := by
  rw [List.filter_filter, List.filter_filter]
  exact List.filter_congr fun a _ => by rw [Bool.and_comm]

theorem cleanDirectory_eq_of_le (files : List String) (m : Nat)
    (h : ¬ m < ((files.filter isLogFile).mergeSort (fun a b => a ≤ b)).length) :
    cleanDirectory files m = files := by
  simp only [cleanDirectory, if_neg h]
  simp

theorem cleanDirectory_eq_of_lt (files : List String) (m : Nat)
    (h : m < ((files.filter isLogFile).mergeSort (fun a b => a ≤ b)).length) :
    cleanDirectory files m = files.filter fun f =>
      !((((files.filter isLogFile).mergeSort (fun a b => a ≤ b)).take
          (((files.filter isLogFile).mergeSort (fun a b => a ≤ b)).length - m)).contains f) := by
  simp only [cleanDirectory, if_pos h]

theorem length_filter_not_contains_take_le {α : Type} [BEq α] [LawfulBEq α]
    (l : List α) (k : Nat) :
    (l.filter fun f => !((l.take k).contains f)).length ≤ l.length - k := by
  have h := List.take_append_drop k l
  have h0 : (l.take k).filter (fun f => !((l.take k).contains f)) = [] := by
    rw [List.filter_eq_nil_iff]
    intro a ha
    simpa using ha
  calc (l.filter fun f => !((l.take k).contains f)).length
      = ((l.take k ++ l.drop k).filter fun f => !((l.take k).contains f)).length := by rw [h]
    _ = (((l.take k).filter fun f => !((l.take k).contains f)).length
        + ((l.drop k).filter fun f => !((l.take k).contains f)).length) := by
          rw [List.filter_append, List.length_append]
    _ = ((l.drop k).filter fun f => !((l.take k).contains f)).length := by
          rw [h0, List.length_nil, Nat.zero_add]
    _ ≤ (l.drop k).length := List.length_filter_le _ _
    _ = l.length - k := List.length_drop k l

/-- Claim C8: running the retention sweep (`clean_directory`) twice on
the same directory content with the same `max_files` leaves exactly the
files of a single run — the second run deletes nothing. -/
theorem sweeper_idempotent (files : List String) (m : Nat) :
    cleanDirectory (cleanDirectory files m) m = cleanDirectory files m := by
  by_cases hc : m < ((files.filter isLogFile).mergeSort (fun a b => a ≤ b)).length
  · have hres := cleanDirectory_eq_of_lt files m hc
    have hperm := List.mergeSort_perm (files.filter isLogFile) (fun a b => a ≤ b)
    have hm2 : ((cleanDirectory files m).filter isLogFile).length ≤ m := by
      rw [hres, filter_comm,
        ← (hperm.filter fun f =>
          !((((files.filter isLogFile).mergeSort (fun a b => a ≤ b)).take
            (((files.filter isLogFile).mergeSort (fun a b => a ≤ b)).length - m)).contains f)).length_eq]
      have hb := length_filter_not_contains_take_le
        ((files.filter isLogFile).mergeSort (fun a b => a ≤ b))
        (((files.filter isLogFile).mergeSort (fun a b => a ≤ b)).length - m)
      omega
    have hc2 : ¬ m <
        (((cleanDirectory files m).filter isLogFile).mergeSort (fun a b => a ≤ b)).length := by
      rw [(List.mergeSort_perm _ _).length_eq]
      omega
    exact cleanDirectory_eq_of_le _ m hc2
  · rw [cleanDirectory_eq_of_le files m hc, cleanDirectory_eq_of_le files m hc]

/-! ### Claim C3 — the segment-rotation condition -/

/-- A fresh broker with `max_file_size = 64` after one 60-byte payload:
the write makes the data file 72 bytes long. -/
def smallBroker : DataStorage := appendData (freshStorage 64 1000 10) (List.replicate 60 7)

/-- Claim C3 counterexample: on a fresh broker with `max_file_size = 64`,
appending a 60-byte payload satisfies the claimed rotation condition
`data_len + len + 12 > max_file_size` (`0 + 60 + 12 > 64`), yet no
rotation happens — the active segment keeps base `0`, no segment is
sealed, and the active data file even grows past `max_file_size` to 72
bytes — because the code's check `data_len + len > max_file_size`
(`0 + 60 > 64`) fails: the 12 header bytes are not counted. -/
theorem rotation_skips_header_bytes :
    (freshStorage 64 1000 10).data.length + 60 + 12 > 64 ∧
    smallBroker.base_offset = 0 ∧
    smallBroker.files = [] ∧
    smallBroker.data.length = 72 := by
  refine ⟨by decide, rfl, rfl, by decide⟩

/-- Claim C3 as amended: an `append_data` call seals the active segment
and starts a brand-new data/index pair at `base = position` (evicting
the oldest cached sealed entry when the cache is full) exactly when
`data_len + len(payload) > max_file_size` before the write — the
12-byte record header is not part of the check; otherwise the active
segment, its `base_offset` and the cached sealed entries are untouched
and the record is appended in place. -/
theorem rotation_condition (s : DataStorage) (p : List Nat) :
    (s.data.length + p.length > s.max_file_size →
      (appendData s p).base_offset = s.position_offset ∧
      (appendData s p).files =
        (if s.cache_limit < s.files.length + 1 then s.files.drop 1 else s.files)
          ++ [⟨s.base_offset, s.data, s.index⟩] ∧
      (appendData s p).data = recordBytes s.position_offset p) ∧
    (s.data.length + p.length ≤ s.max_file_size →
      (appendData s p).base_offset = s.base_offset ∧
      (appendData s p).files = s.files ∧
      (appendData s p).data = s.data ++ recordBytes s.position_offset p) := by
  constructor
  · intro h
    have hc : s.max_file_size < s.data.length + p.length := h
    simp only [appendData, if_pos hc, recordBytes, List.nil_append]
    exact ⟨trivial, trivial, trivial⟩
  · intro h
    have hc : ¬ s.max_file_size < s.data.length + p.length := by omega
    simp only [appendData, if_neg hc, recordBytes]
    exact ⟨trivial, trivial, trivial⟩

/-- Witness for C3 (amended): the rotation case on `smallBroker`
(72 + 1 > 64, so the second append rotates to base `position = 1`) and
the in-place case on the fresh broker (0 + 60 is at most 64). -/
theorem rotation_condition_witness :
    ((appendData smallBroker [5]).base_offset = smallBroker.position_offset ∧
      (appendData smallBroker [5]).files =
        (if smallBroker.cache_limit < smallBroker.files.length + 1
          then smallBroker.files.drop 1 else smallBroker.files)
          ++ [⟨smallBroker.base_offset, smallBroker.data, smallBroker.index⟩] ∧
      (appendData smallBroker [5]).data = recordBytes smallBroker.position_offset [5]) ∧
    ((appendData (freshStorage 64 1000 10) (List.replicate 60 7)).base_offset
        = (freshStorage 64 1000 10).base_offset ∧
      (appendData (freshStorage 64 1000 10) (List.replicate 60 7)).files
        = (freshStorage 64 1000 10).files ∧
      (appendData (freshStorage 64 1000 10) (List.replicate 60 7)).data
        = (freshStorage 64 1000 10).data
            ++ recordBytes (freshStorage 64 1000 10).position_offset (List.replicate 60 7)) :=
  ⟨(rotation_condition smallBroker [5]).1 (by decide),
   (rotation_condition (freshStorage 64 1000 10) (List.replicate 60 7)).2 (by decide)⟩

/-! ### Claim C4 — cold-restart recovery of `position` -/

/-- The on-disk active index of a base-0 broker after 1024 appends of
1-byte payloads: the index was extended once (to `18432` bytes = 1536
slots), slots `0 .. 1023` hold `(13 * i, 13)` and the remaining slots
are all zero, so the first all-zero slot is slot `1024`. -/
def fullIndex : List IndexEntry :=
  ((List.range 1024).map fun i => ⟨13 * i, 13⟩) ++ List.replicate 512 zeroEntry

theorem scanPosition_eq_zero_of_ne (l : List IndexEntry)
    (h : ∀ e ∈ l, ¬(e.start = 0 ∧ e.size = 0)) :
    ∀ k off, scanPosition l k off = 0 := by
  induction l with
  | nil => intro k off; rfl
  | cons e rest ih =>
    intro k off
    rw [scanPosition, if_neg (h e (List.mem_cons_self e rest))]
    exact ih (fun x hx => h x (List.mem_cons_of_mem e hx)) (k + 1) off

theorem scanPosition_append_zero (A rest : List IndexEntry)
    (h : ∀ e ∈ A, ¬(e.start = 0 ∧ e.size = 0)) :
    ∀ k off, scanPosition (A ++ zeroEntry :: rest) k off = off + (k + A.length) := by
  induction A with
  | nil =>
    intro k off
    rw [List.nil_append, scanPosition, if_pos ⟨rfl, rfl⟩]
    rfl
  | cons e A ih =>
    intro k off
    rw [List.cons_append, scanPosition, if_neg (h e (List.mem_cons_self e A))]
    rw [ih (fun x hx => h x (List.mem_cons_of_mem e hx)) (k + 1) off]
    simp only [List.length_cons]
    omega

theorem fullIndex_written_nonzero :
    ∀ e ∈ (List.range 1024).map (fun i => (⟨13 * i, 13⟩ : IndexEntry)),
      ¬(e.start = 0 ∧ e.size = 0) := by
  intro e he
  rw [List.mem_map] at he
  obtain ⟨i, _, rfl⟩ := he
  simp

/-- Claim C4 is the intended behaviour, but the code breaks it: on the
restart path `initialize_files` calls `create_new_files(last_offset)`,
whose `create_index_file` re-opens the existing active index and calls
`set_len(INITIAL_INDEX_SIZE)`, truncating it back to 1024 slots.  For a
directory whose active index has its first all-zero slot at `k = 1024`
(1024 records written, as after scenario `fullIndex`), the scan finds
no all-zero slot in the truncated index and `position` keeps its
initial value `0` instead of the claimed `base + 1024` — recovery
silently loses the high-water mark (and spec invariant 3). -/
theorem restart_truncates_expanded_index :
    firstZeroSlot fullIndex = some 1024 ∧
    restartPosition fullIndex 0 = 0 ∧
    restartPosition (fullIndex.take 100 ++ List.replicate 1436 zeroEntry) 0 = 100 := by
  have hlenA : ((List.range 1024).map fun i => (⟨13 * i, 13⟩ : IndexEntry)).length = 1024 := by
    simp
  refine ⟨?_, ?_, ?_⟩
  · rw [firstZeroSlot, fullIndex, List.findIdx?_append]
    have hA : (((List.range 1024).map fun i => (⟨13 * i, 13⟩ : IndexEntry)).findIdx?
        fun e => e.start == 0 && e.size == 0) = none := by
      rw [List.findIdx?_eq_none_iff]
      intro x hx
      have hnz := fullIndex_written_nonzero x hx
      by_cases h0 : x.start = 0
      · have h1 : x.size ≠ 0 := fun hs => hnz ⟨h0, hs⟩
        simp [h0, h1]
      · simp [h0]
    rw [hA]
    rw [show (512 : Nat) = 511 + 1 from rfl, List.replicate_succ, List.findIdx?_cons]
    rw [if_pos (show ((fun e : IndexEntry => e.start == 0 && e.size == 0) zeroEntry) = true
      from rfl)]
    rw [hlenA]
    rfl
  · rw [restartPosition, restartIndexView, fullIndex]
    have hlen : (((List.range 1024).map fun i => (⟨13 * i, 13⟩ : IndexEntry))
        ++ List.replicate 512 zeroEntry).length = 1536 := by
      rw [List.length_append, List.length_map, List.length_range, List.length_replicate]
    rw [hlen]
    have h0 : INITIAL_INDEX_SLOTS - 1536 = 0 := by rw [INITIAL_INDEX_SLOTS]
    rw [h0, List.replicate_zero, List.append_nil, INITIAL_INDEX_SLOTS,
      List.take_left' hlenA]
    exact scanPosition_eq_zero_of_ne _ fullIndex_written_nonzero 0 0
  · have hT : fullIndex.take 100
        = ((List.range 1024).map fun i => (⟨13 * i, 13⟩ : IndexEntry)).take 100 := by
      rw [fullIndex, List.take_append_eq_append_take, hlenA]
      norm_num
    have hTlen : (fullIndex.take 100).length = 100 := by
      rw [hT, List.length_take, hlenA]
      norm_num
    have hTnz : ∀ e ∈ fullIndex.take 100, ¬(e.start = 0 ∧ e.size = 0) := by
      intro e he
      rw [hT] at he
      exact fullIndex_written_nonzero e (List.mem_of_mem_take he)
    rw [restartPosition, restartIndexView]
    have hlen2 : (fullIndex.take 100 ++ List.replicate 1436 zeroEntry).length = 1536 := by
      rw [List.length_append, hTlen, List.length_replicate]
    rw [hlen2]
    have h0 : INITIAL_INDEX_SLOTS - 1536 = 0 := by rw [INITIAL_INDEX_SLOTS]
    rw [h0, List.replicate_zero, List.append_nil, INITIAL_INDEX_SLOTS,
      List.take_append_eq_append_take, hTlen]
    rw [List.take_of_length_le (by rw [hTlen]; norm_num)]
    have htr : List.take (1024 - 100) (List.replicate 1436 zeroEntry)
        = zeroEntry :: List.replicate 923 zeroEntry := by
      rw [List.take_replicate]
      norm_num
      rw [show (924 : Nat) = 923 + 1 by norm_num, List.replicate_succ]
    rw [htr, scanPosition_append_zero _ _ hTnz 0 0, hTlen]

/-! ### Claim C6 — which sealed entry a PULL uses -/

theorem selectLoopGo_walk_none (fs : List FileEntry) (off : Nat)
    (H : ∀ m, 1 ≤ m → m < fs.length → ¬(off < baseAt fs m ∧ baseAt fs (m - 1) < off)) :
    ∀ k i, 1 ≤ i → i + k = fs.length → selectLoopGo fs off k i (i - 1) = none := by
  intro k
  induction k with
  | zero => intro i _ _; rfl
  | succ k ih =>
    intro i hi hik
    rw [selectLoopGo, if_neg (H i hi (by omega))]
    have h := ih (i + 1) (by omega) (by omega)
    simpa using h

theorem selectLoopGo_walk_hit (fs : List FileEntry) (off j : Nat)
    (hj1 : 1 ≤ j) (hjlen : j < fs.length)
    (hhit : off < baseAt fs j ∧ baseAt fs (j - 1) < off)
    (H : ∀ m, 1 ≤ m → m < j → ¬(off < baseAt fs m ∧ baseAt fs (m - 1) < off)) :
    ∀ k i, 1 ≤ i → i ≤ j → i + k = fs.length →
      selectLoopGo fs off k i (i - 1) = some (j - 1) := by
  intro k
  induction k with
  | zero => intro i h1 h2 h3; exact absurd h3 (by omega)
  | succ k ih =>
    intro i h1 h2 h3
    by_cases hij : i = j
    · subst hij
      rw [selectLoopGo, if_pos hhit]
    · rw [selectLoopGo, if_neg (H i h1 (by omega))]
      have h := ih (i + 1) (by omega) (by omega) (by omega)
      simpa using h

theorem selectLoopGo_start (fs : List FileEntry) (off : Nat) (hlen : 1 ≤ fs.length) :
    selectLoopGo fs off fs.length 0 0 = selectLoopGo fs off (fs.length - 1) 1 0 := by
  obtain ⟨k, hk⟩ : ∃ k, fs.length = k + 1 := ⟨fs.length - 1, by omega⟩
  rw [hk]
  rw [selectLoopGo, if_neg (by rintro ⟨hc1, hc2⟩; omega)]
  simp

theorem sendfile_sealed_eq (s : DataStorage) (o off : Nat)
    (hoff : resolveOffset o s.position_offset = off)
    (hnot : ¬(s.base_offset ≤ off ∧ off < s.position_offset)) :
    sendfile s o = (match selectSealed s.files s.base_offset off with
      | some j =>
        let e := (s.files[j]?).getD ⟨0, [], []⟩
        let entry := readIndex e.index (off - e.base_offset)
        let len := e.data.length
        let size := if s.pull_max_limit < len - entry.start
          then entry.start + entry.size - entry.start else len - entry.start
        .ok ⟨off, .sealed e.base_offset, entry, len, size, (e.data.drop entry.start).take size⟩
      | none => .error "index file not match") := by
  simp only [sendfile, hoff]
  rw [if_neg hnot]

/-- Claim C6 as amended: for a resolved offset below the active base,
over an ascending chain of cached sealed bases (all below the active
base), the entry used for the index lookup is the cached entry with the
largest `base <= offset` — but only when the offset is strictly greater
than that base, or when that entry is the last (largest-base) cached
entry.  When the offset exactly equals the base of a non-last cached
entry (the search loop demands `offset > guard[pre].base_offset`, and
the fallback only accepts the last entry), or when no cached entry has
`base <= offset`, the call fails with the `"index file not match"`
error. -/
theorem sealed_lookup_selection (s : DataStorage) (o off : Nat)
    (hoff : resolveOffset o s.position_offset = off)
    (hsort : ∀ i j, i < j → j < s.files.length → baseAt s.files i < baseAt s.files j)
    (hbelow : off < s.base_offset) :
    ((∀ i, i < s.files.length → off < baseAt s.files i) →
      sendfile s o = .error "index file not match") ∧
    (∀ j, j < s.files.length → baseAt s.files j ≤ off →
      (∀ i, i < s.files.length → baseAt s.files i ≤ off → i ≤ j) →
      ((baseAt s.files j < off ∨ j = s.files.length - 1) →
        selectSealed s.files s.base_offset off = some j ∧
        ∃ r, sendfile s o = .ok r ∧ r.src = .sealed (baseAt s.files j)) ∧
      (baseAt s.files j = off ∧ j < s.files.length - 1 →
        sendfile s o = .error "index file not match")) := by
  have hnot : ¬(s.base_offset ≤ off ∧ off < s.position_offset) := by
    rintro ⟨h1, _⟩; omega
  have hsf := sendfile_sealed_eq s o off hoff hnot
  have hmono : ∀ a b, a ≤ b → b < s.files.length →
      baseAt s.files a ≤ baseAt s.files b := by
    intro a b hab hb
    rcases Nat.lt_or_ge a b with h | h
    · exact Nat.le_of_lt (hsort a b h hb)
    · have : a = b := by omega
      rw [this]
  constructor
  · -- no cached base is at or below the offset
    intro hall
    have hnone : selectSealed s.files s.base_offset off = none := by
      rw [selectSealed]
      split
      · rw [selectLoopGo_start _ _ (by omega),
          selectLoopGo_walk_none s.files off
            (fun m _ hm => by
              rintro ⟨_, hc2⟩
              have := hall (m - 1) (by omega)
              omega)
            (s.files.length - 1) 1 (by omega) (by omega)]
        rw [if_neg]
        rintro ⟨_, hc2⟩
        have := hall (s.files.length - 1) (by omega)
        omega
      · rfl
    rw [hsf, hnone]
  · intro j hj hle hmax
    have he : s.files[j]? = some s.files[j] := List.getElem?_eq_getElem hj
    have hbasej : baseAt s.files j = (s.files[j]).base_offset := by
      simp [baseAt, he]
    constructor
    · intro hcase
      have hsel : selectSealed s.files s.base_offset off = some j := by
        by_cases hlast : j = s.files.length - 1
        · -- fallback selects the last entry
          have hnoloop : selectLoopGo s.files off s.files.length 0 0 = none := by
            rw [selectLoopGo_start _ _ (by omega)]
            exact selectLoopGo_walk_none s.files off
              (fun m hm1 hm2 => by
                rintro ⟨hc1, _⟩
                have hm3 : baseAt s.files m ≤ baseAt s.files j :=
                  hmono m j (by omega) hj
                omega)
              (s.files.length - 1) 1 (by omega) (by omega)
          rw [selectSealed, if_pos (by omega), hnoloop,
            if_pos ⟨hbelow, by rw [← hlast] at *; exact hle⟩, ← hlast]
        · -- the loop fires at i = j + 1
          have hstrict : baseAt s.files j < off := by
            rcases hcase with h | h
            · exact h
            · exact absurd h hlast
          have hj1len : j + 1 < s.files.length := by omega
          have hhit : off < baseAt s.files (j + 1) ∧
              baseAt s.files (j + 1 - 1) < off := by
            constructor
            · by_contra hc
              have := hmax (j + 1) hj1len (by omega)
              omega
            · simpa using hstrict
          have hloop : selectLoopGo s.files off s.files.length 0 0 = some j := by
            rw [selectLoopGo_start _ _ (by omega)]
            have h := selectLoopGo_walk_hit s.files off (j + 1) (by omega) hj1len hhit
              (fun m hm1 hm2 => by
                rintro ⟨hc1, _⟩
                have : baseAt s.files m ≤ baseAt s.files j := hmono m j (by omega) hj
                omega)
              (s.files.length - 1) 1 (by omega) (by omega) (by omega)
            simpa using h
          rw [selectSealed, if_pos (by omega), hloop]
      refine ⟨hsel, ⟨_, by rw [hsf, hsel], ?_⟩⟩
      simp only [hbasej, he]
      rfl
    · rintro ⟨heq, hlt2⟩
      have hnone : selectSealed s.files s.base_offset off = none := by
        have hnoloop : selectLoopGo s.files off s.files.length 0 0 = none := by
          rw [selectLoopGo_start _ _ (by omega)]
          exact selectLoopGo_walk_none s.files off
            (fun m hm1 hm2 => by
              rintro ⟨hc1, hc2⟩
              rcases le_or_lt m j with hmj | hmj
              · have : baseAt s.files m ≤ baseAt s.files j := hmono m j hmj hj
                omega
              · have : baseAt s.files j ≤ baseAt s.files (m - 1) :=
                  hmono j (m - 1) (by omega) (by omega)
                omega)
            (s.files.length - 1) 1 (by omega) (by omega)
        rw [selectSealed, if_pos (by omega), hnoloop, if_neg]
        rintro ⟨_, hc2⟩
        have : baseAt s.files j < baseAt s.files (s.files.length - 1) :=
          hsort j (s.files.length - 1) (by omega) (by omega)
        omega
      rw [hsf, hnone]

/-- A sealed two-record segment with base `b` (records `b` and `b + 1`,
1-byte payloads), as rotation produces. -/
def sealedSeg (b : Nat) : FileEntry :=
  ⟨b, recordsFrom b [[1], [2]], [⟨0, 13⟩, ⟨13, 13⟩]⟩

/-- A broker with three cached sealed segments (bases 0, 2, 4) and an
active segment at base 6 with no records yet appended to it. -/
def cex6 : DataStorage :=
  ⟨6, 6, [], List.replicate INITIAL_INDEX_SLOTS ⟨0, 0⟩,
    [sealedSeg 0, sealedSeg 2, sealedSeg 4], 1000, 1000, 10⟩

/-- Claim C6 counterexample: the cached sealed bases are `[0, 2, 4]`
and the resolved offset `2` is below the active base `6`, so the claim
says the entry with the largest `base <= 2` — the entry with base `2`,
offset equal to its base — is used.  The code instead returns the
`IndexNotMatched` error: the search loop requires
`offset > guard[pre].base_offset` (strict), and the fallback only
accepts the last entry (base 4). -/
theorem sealed_lookup_equality_fails :
    cex6.files.map FileEntry.base_offset = [0, 2, 4] ∧
    baseAt cex6.files 1 = 2 ∧
    sendfile cex6 2 = .error "index file not match" :=
  ⟨rfl, rfl, rfl⟩

/-- Witness for C6 (amended), on `cex6`: offset 3 (strictly above base
2) selects the base-2 entry; offset 2 (equal to the non-last base 2)
fails with the error. -/
theorem sealed_lookup_selection_witness :
    (selectSealed cex6.files cex6.base_offset 3 = some 1 ∧
      ∃ r, sendfile cex6 3 = .ok r ∧ r.src = .sealed (baseAt cex6.files 1)) ∧
    sendfile cex6 2 = .error "index file not match" :=
  ⟨((sealed_lookup_selection cex6 3 3 rfl
      (by intro i j hij hj
          have hj3 : j < 3 := hj
          interval_cases j <;> interval_cases i <;> decide)
      (by decide)).2 1 (by decide) (by decide) (by decide)).1 (Or.inl (by decide)),
   ((sealed_lookup_selection cex6 2 2 rfl
      (by intro i j hij hj
          have hj3 : j < 3 := hj
          interval_cases j <;> interval_cases i <;> decide)
      (by decide)).2 1 (by decide) (by decide) (by decide)).2 (by decide)⟩

/-! ### Claim C9 — the size parser -/

theorem unit_not_digit (c : Char) (h : isUnitChar c = true) : isDigitChar c = false := by
  simp only [isUnitChar, decide_eq_true_eq] at h
  rcases h with rfl | rfl | rfl | rfl | rfl | rfl <;> decide

theorem takeWhile_all {p : Char → Bool} {l1 : List Char}
    (h : ∀ a ∈ l1, p a = true) (l2 : List Char) :
    (l1 ++ l2).takeWhile p = l1 ++ l2.takeWhile p := by
  induction l1 with
  | nil => simp
  | cons c l1 ih =>
    rw [List.cons_append, List.takeWhile_cons_of_pos (h c (List.mem_cons_self c l1)),
      ih (fun a ha => h a (List.mem_cons_of_mem c ha)), List.cons_append]

theorem dropWhile_all {p : Char → Bool} {l1 : List Char}
    (h : ∀ a ∈ l1, p a = true) (l2 : List Char) :
    (l1 ++ l2).dropWhile p = l2.dropWhile p := by
  induction l1 with
  | nil => simp
  | cons c l1 ih =>
    rw [List.cons_append, List.dropWhile_cons_of_pos (h c (List.mem_cons_self c l1)),
      ih (fun a ha => h a (List.mem_cons_of_mem c ha))]

theorem findMatch_prefix (pre ds us post : List Char)
    (hpre : ∀ c ∈ pre, isDigitChar c = false)
    (hds : ds ≠ []) (hds2 : ∀ c ∈ ds, isDigitChar c = true)
    (hus : us ≠ []) (hus2 : ∀ c ∈ us, isUnitChar c = true)
    (hpost : ∀ c ∈ post.take 1, isUnitChar c = false) :
    findMatch (pre ++ (ds ++ us ++ post)) = some (ds, us) := by
  induction pre with
  | cons c pre ih =>
    rw [List.cons_append, findMatch,
      if_neg (by rw [hpre c (List.mem_cons_self c pre)]; exact Bool.false_ne_true)]
    exact ih fun a ha => hpre a (List.mem_cons_of_mem c ha)
  | nil =>
    rw [List.nil_append]
    obtain ⟨d, ds1, rfl⟩ : ∃ d ds1, ds = d :: ds1 := by
      cases ds with
      | nil => exact absurd rfl hds
      | cons d ds1 => exact ⟨d, ds1, rfl⟩
    obtain ⟨u, us1, rfl⟩ : ∃ u us1, us = u :: us1 := by
      cases us with
      | nil => exact absurd rfl hus
      | cons u us1 => exact ⟨u, us1, rfl⟩
    have hud : isDigitChar u = false := unit_not_digit u (hus2 u (List.mem_cons_self u us1))
    have htw : List.takeWhile isDigitChar (d :: (ds1 ++ (u :: (us1 ++ post)))) = d :: ds1 := by
      have h := takeWhile_all hds2 (u :: (us1 ++ post))
      simp only [List.cons_append] at h
      rw [h, List.takeWhile_cons_of_neg (by rw [hud]; exact Bool.false_ne_true),
        List.append_nil]
    have hdw : List.dropWhile isDigitChar (d :: (ds1 ++ (u :: (us1 ++ post))))
        = u :: (us1 ++ post) := by
      have h := dropWhile_all hds2 (u :: (us1 ++ post))
      simp only [List.cons_append] at h
      rw [h, List.dropWhile_cons_of_neg (by rw [hud]; exact Bool.false_ne_true)]
    have htu : List.takeWhile isUnitChar (u :: (us1 ++ post)) = u :: us1 := by
      have h := takeWhile_all hus2 post
      simp only [List.cons_append] at h
      rw [h]
      cases post with
      | nil => simp
      | cons c t =>
        rw [List.takeWhile_cons_of_neg
          (by rw [hpost c (by simp)]; exact Bool.false_ne_true), List.append_nil]
    simp only [findMatch, List.append_eq, List.append_assoc, List.cons_append]
    rw [if_pos (hds2 d (List.mem_cons_self d ds1))]
    rw [hdw, htu, htw]
    rw [if_neg (by simp)]

/-- Does the string contain a digit immediately followed by a unit
letter?  (The necessary and sufficient condition for the unanchored
regex `(\d+)([kKmMgG]+)` to match somewhere.) -/
def hasDigitUnitPair : List Char → Bool
  | a :: b :: rest => (isDigitChar a && isUnitChar b) || hasDigitUnitPair (b :: rest)
  | _ => false

theorem dropWhile_head_pair :
    ∀ (l : List Char) (c : Char), isDigitChar c = true →
      ∀ u t, (c :: l).dropWhile isDigitChar = u :: t → isUnitChar u = true →
      hasDigitUnitPair (c :: l) = true := by
  intro l
  induction l with
  | nil =>
    intro c hc u t hdw _
    rw [List.dropWhile_cons_of_pos hc] at hdw
    exact absurd hdw (by simp)
  | cons b r ih =>
    intro c hc u t hdw hu
    rw [List.dropWhile_cons_of_pos hc] at hdw
    by_cases hb : isDigitChar b = true
    · have h := ih b hb u t hdw hu
      rw [hasDigitUnitPair, h, Bool.or_true]
    · rw [List.dropWhile_cons_of_neg hb] at hdw
      injection hdw with h1 _
      subst h1
      rw [hasDigitUnitPair, hc, hu]
      rfl

theorem findMatch_some_hasPair :
    ∀ (s : List Char) ds us, findMatch s = some (ds, us) → hasDigitUnitPair s = true := by
  intro s
  induction s with
  | nil => intro ds us h; exact absurd h (by rw [findMatch]; simp)
  | cons c rest ih =>
    intro ds us h
    rw [findMatch] at h
    by_cases hc : isDigitChar c = true
    · rw [if_pos hc] at h
      by_cases he : ((c :: rest).dropWhile isDigitChar).takeWhile isUnitChar = []
      · rw [if_pos (by rw [he]; rfl)] at h
        cases rest with
        | nil => exact absurd h (by rw [findMatch]; simp)
        | cons b r =>
          rw [hasDigitUnitPair, ih ds us h, Bool.or_true]
      · have hne := he
        obtain ⟨u, t, hdw, hu⟩ : ∃ u t, (c :: rest).dropWhile isDigitChar = u :: t
            ∧ isUnitChar u = true := by
          cases hafter : (c :: rest).dropWhile isDigitChar with
          | nil => rw [hafter] at hne; exact absurd rfl hne
          | cons u t =>
            refine ⟨u, t, rfl, ?_⟩
            by_cases hu : isUnitChar u = true
            · exact hu
            · rw [hafter, List.takeWhile_cons_of_neg hu] at hne
              exact absurd rfl hne
        exact dropWhile_head_pair rest c hc u t hdw hu
    · rw [if_neg hc] at h
      cases rest with
      | nil => exact absurd h (by rw [findMatch]; simp)
      | cons b r =>
        rw [hasDigitUnitPair, ih ds us h, Bool.or_true]

theorem getLastD_cons_cons (c b : Char) (r : List Char) (d1 d2 : Char) :
    (c :: b :: r).getLastD d1 = (b :: r).getLastD d2 := by
  simp only [List.getLastD_cons]

/-- Inside a string with no digit-unit adjacency that does not end in a
digit, the maximal digit run starting at a digit `c` is followed by a
character that is neither a digit nor a unit letter. -/
theorem digitRun_head (l : List Char) : ∀ c, isDigitChar c = true →
    isDigitChar ((c :: l).getLastD ' ') = false → hasDigitUnitPair (c :: l) = false →
    ∃ h t, List.dropWhile isDigitChar (c :: l) = h :: t ∧
      isDigitChar h = false ∧ isUnitChar h = false := by
  induction l with
  | nil =>
    intro c hc hlast _
    rw [show (([c] : List Char).getLastD ' ') = c from rfl] at hlast
    simp [hc] at hlast
  | cons b r ih =>
    intro c hc hlast hpair
    rw [List.dropWhile_cons_of_pos hc]
    have hpair' : hasDigitUnitPair (b :: r) = false := by
      rw [hasDigitUnitPair, Bool.or_eq_false_iff] at hpair
      exact hpair.2
    by_cases hb : isDigitChar b = true
    · have hlast' : isDigitChar ((b :: r).getLastD ' ') = false := by
        rw [← getLastD_cons_cons c b r ' ' ' ']
        exact hlast
      exact ih b hb hlast' hpair'
    · refine ⟨b, r, List.dropWhile_cons_of_neg hb, Bool.not_eq_true _ |>.mp hb, ?_⟩
      rw [hasDigitUnitPair, Bool.or_eq_false_iff, Bool.and_eq_false_iff] at hpair
      rcases hpair.1 with h | h
      · exact absurd hc (by rw [h]; exact Bool.false_ne_true)
      · exact h

/-- The regex scan skips any prefix that contains no digit immediately
followed by a unit letter and does not end in a digit: no match can
start inside such a prefix, and no digit run of it can merge with what
follows. -/
theorem findMatch_skip (pre Y : List Char)
    (h1 : hasDigitUnitPair pre = false)
    (h2 : isDigitChar (pre.getLastD ' ') = false) :
    findMatch (pre ++ Y) = findMatch Y := by
  induction pre with
  | nil => rw [List.nil_append]
  | cons c pre ih =>
    have h1' : hasDigitUnitPair pre = false := by
      cases pre with
      | nil => rfl
      | cons b r =>
        rw [hasDigitUnitPair, Bool.or_eq_false_iff] at h1
        exact h1.2
    have h2' : isDigitChar (pre.getLastD ' ') = false := by
      cases pre with
      | nil => decide
      | cons b r =>
        rw [← getLastD_cons_cons c b r ' ' ' ']
        exact h2
    rw [List.cons_append]
    simp only [findMatch]
    by_cases hc : isDigitChar c = true
    · rw [if_pos hc]
      obtain ⟨h, t, hdrop, hhd, hhu⟩ := digitRun_head pre c hc h2 h1
      have hdropA : List.dropWhile isDigitChar (c :: (pre ++ Y)) = h :: (t ++ Y) := by
        rw [← List.cons_append, List.dropWhile_append, hdrop]
        rw [if_neg (by simp)]
        rfl
      rw [hdropA, List.takeWhile_cons_of_neg
        (show ¬ isUnitChar h = true from by rw [hhu]; exact Bool.false_ne_true)]
      rw [if_pos (show ([] : List Char).isEmpty = true from rfl)]
      exact ih h1' h2'
    · rw [if_neg hc]
      exact ih h1' h2'

/-- Claim C9 counterexample: the claim says every input that is not of
the form digits-then-unit-letter is a parse error, but the regex
`(\d+)([kKmMgG]+)` is unanchored: `"7gb"` and `" 7g "` both return
`Ok(7 * 1024^3)`. -/
theorem parse_size_unanchored :
    parse_size ("7gb".toList) = .ok 7516192768 ∧
    parse_size (" 7g ".toList) = .ok 7516192768 :=
  ⟨rfl, rfl⟩

/-- Claim C9 as amended: `parse_size` acts on the first substring of
the input that is a digit run immediately followed by a unit-letter
run, regardless of what surrounds it: with value `n` below `usize`
range, a single-letter unit run `k`/`K`, `m`/`M`, `g`/`G` yields
`Ok(n * 1024^e mod 2^64)` for `e = 1, 2, 3`; a unit run of two or more
letters yields `Err("Unknown unit")`; and an input with no digit
immediately followed by a unit letter anywhere yields
`Err("Invalid format")`. -/
theorem parse_size_behavior :
    (∀ pre ds us post : List Char,
      hasDigitUnitPair pre = false →
      isDigitChar (pre.getLastD ' ') = false →
      ds ≠ [] →
      (∀ c ∈ ds, isDigitChar c = true) → us ≠ [] →
      (∀ c ∈ us, isUnitChar c = true) →
      (∀ c ∈ post.take 1, isUnitChar c = false) →
      natOfDigits ds < USIZE_BOUND →
      parse_size (pre ++ (ds ++ us ++ post)) =
        (match us.map Char.toLower with
        | ['k'] => .ok (natOfDigits ds * 1024 % USIZE_BOUND)
        | ['m'] => .ok (natOfDigits ds * (1024 * 1024) % USIZE_BOUND)
        | ['g'] => .ok (natOfDigits ds * (1024 * 1024 * 1024) % USIZE_BOUND)
        | _ => .error "Unknown unit")) ∧
    (∀ s : List Char, hasDigitUnitPair s = false →
      parse_size s = .error "Invalid format") := by
  constructor
  · intro pre ds us post hp1 hp2 h2 h3 h4 h5 h6 h7
    have hm : findMatch (pre ++ (ds ++ us ++ post)) = some (ds, us) := by
      rw [findMatch_skip pre _ hp1 hp2]
      have h := findMatch_prefix [] ds us post
        (fun c hc => absurd hc (List.not_mem_nil c)) h2 h3 h4 h5 h6
      rw [List.nil_append] at h
      exact h
    simp only [parse_size, hm, if_pos h7]
  · intro s h
    cases hf : findMatch s with
    | none => simp only [parse_size, hf]
    | some v =>
      have hp := findMatch_some_hasPair s v.1 v.2 (by rw [hf])
      rw [h] at hp
      exact absurd hp Bool.false_ne_true

/-- Witness for C9 (amended): `"1x2k"` — whose prefix `"1x"` contains a
digit run that fails to match — parses to `Ok(2 * 1024)` from the first
real match `"2k"`, and `"xk"` (no digit before a unit letter) is an
`Invalid format` error. -/
theorem parse_size_behavior_witness :
    parse_size ("1x".toList ++ ("2".toList ++ "k".toList ++ [])) =
      .ok (natOfDigits "2".toList * 1024 % USIZE_BOUND) ∧
    parse_size "xk".toList = .error "Invalid format" :=
  ⟨parse_size_behavior.1 "1x".toList "2".toList "k".toList []
    (by decide) (by decide) (by decide) (by decide) (by decide) (by decide) (by decide)
    (by decide),
   parse_size_behavior.2 "xk".toList (by decide)⟩

/-! ### Claim C1 — what PULL offset 0 actually streams -/

theorem recordBytes_length (pos : Nat) (p : List Nat) :
    (recordBytes pos p).length = 12 + p.length := by
  simp only [recordBytes, List.length_append, beBytes_length]

theorem parsePayloadsF_record (fuel pos : Nat) (p rest : List Nat)
    (hp : p.length ≠ 0) (hlt : p.length < 2 ^ 32) :
    parsePayloadsF (fuel + 1) (recordBytes pos p ++ rest)
      = (parsePayloadsF fuel rest).map (p :: ·) := by
  have hlb : (recordBytes pos p ++ rest).length = 12 + p.length + rest.length := by
    rw [List.length_append, recordBytes_length]
  have htake4 : readBE ((recordBytes pos p ++ rest).take 4) = p.length := by
    have hsplit : recordBytes pos p ++ rest
        = beBytes 4 p.length ++ (beBytes 8 pos ++ (p ++ rest)) := by
      simp [recordBytes, List.append_assoc]
    rw [hsplit, List.take_left' (beBytes_length 4 p.length), readBE_beBytes]
    have h4 : (256 : Nat) ^ 4 = 2 ^ 32 := by norm_num
    rw [h4]
    exact Nat.mod_eq_of_lt hlt
  have hdrop12 : (recordBytes pos p ++ rest).drop 12 = p ++ rest := by
    have hsplit : recordBytes pos p ++ rest
        = (beBytes 4 p.length ++ beBytes 8 pos) ++ (p ++ rest) := by
      simp [recordBytes, List.append_assoc]
    rw [hsplit, List.drop_left']
    rw [List.length_append, beBytes_length, beBytes_length]
  have hdroprec : (recordBytes pos p ++ rest).drop (12 + p.length) = rest :=
    List.drop_left' (recordBytes_length pos p)
  simp only [parsePayloadsF, htake4]
  rw [if_neg (by omega), if_neg hp, if_neg (by omega), hdrop12, hdroprec,
    List.take_left' rfl]

theorem parsePayloadsF_terminator (fuel : Nat) :
    parsePayloadsF (fuel + 1) (beBytes 4 0) = some [] := by
  have h2 : readBE ((beBytes 4 0).take 4) = 0 := rfl
  have h1 : (beBytes 4 0).length = 4 := beBytes_length 4 0
  simp only [parsePayloadsF, h2]
  simp [h1]

theorem parse_single_record (pos : Nat) (p : List Nat)
    (hp : p.length ≠ 0) (hlt : p.length < 2 ^ 32) :
    parsePayloads (recordBytes pos p ++ beBytes 4 0) = some [p] := by
  rw [parsePayloads, parsePayloadsF_record _ pos p _ hp hlt]
  obtain ⟨f, hf⟩ : ∃ f, (recordBytes pos p ++ beBytes 4 0).length = f + 1 :=
    ⟨(recordBytes pos p ++ beBytes 4 0).length - 1,
      by rw [List.length_append, recordBytes_length, beBytes_length]; omega⟩
  rw [hf, parsePayloadsF_terminator f]
  rfl

/-- The shape invariant `append_data` maintains regardless of
rotation: the active base is at most `position`, and the active index
has room for the slot of the last written record (so the 512-slot
expansion step always reaches the next slot to write). -/
def WfState (s : DataStorage) : Prop :=
  s.base_offset ≤ s.position_offset ∧
  s.position_offset - s.base_offset + 1 ≤ s.index.length

/-- What a pull of the latest record needs to know about a broker that
just appended its `n`-th record with payload `pl`: `position = n`, the
active base is below `n`, the active index slot of record `n - 1`
points at the final `12 + |pl|` bytes of the active data file, and
those bytes are exactly the record `n - 1`. -/
def LastInv (n : Nat) (pl : List Nat) (s : DataStorage) : Prop :=
  s.position_offset = n ∧ s.base_offset < n ∧
  s.index[n - 1 - s.base_offset]? =
    some ⟨s.data.length - (12 + pl.length), (12 + pl.length) % 2 ^ 32⟩ ∧
  12 + pl.length ≤ s.data.length ∧
  s.data.drop (s.data.length - (12 + pl.length)) = recordBytes (n - 1) pl

/-- The rotation step of `append_data` (`storage.rs` lines 277-294),
factored out of `appendData`: a fresh active data/index pair at
`base = position`, the previous active segment pushed as a sealed
entry, with eviction when the cache is full. -/
def rotateState (s : DataStorage) : DataStorage :=
  { s with
      data := []
      index := List.replicate INITIAL_INDEX_SLOTS ⟨0, 0⟩
      files := (if s.cache_limit < s.files.length + 1 then s.files.drop 1 else s.files)
        ++ [⟨s.base_offset, s.data, s.index⟩]
      base_offset := s.position_offset }

/-- Steps 2-5 of `append_data` (index expansion, record write, slot
write and next-slot zeroing, position bump), applied to the
possibly-rotated state. -/
def appendStep (s1 : DataStorage) (p : List Nat) : DataStorage :=
  let base := s1.base_offset
  let pos := s1.position_offset
  let idx0 :=
    if s1.index.length * 12 < (pos + 2 - base) * 12 then
      s1.index ++ List.replicate INDEX_EXPANSION_SLOTS ⟨0, 0⟩
    else s1.index
  let start := s1.data.length
  { s1 with
      data := s1.data ++ (beBytes 4 p.length ++ beBytes 8 pos ++ p)
      index := (idx0.set (pos - base) ⟨start, (12 + p.length) % 2 ^ 32⟩).set
        (pos - base + 1) ⟨0, 0⟩
      position_offset := pos + 1 }

theorem appendData_decompose (s : DataStorage) (p : List Nat) :
    appendData s p =
      appendStep (if s.max_file_size < s.data.length + p.length then rotateState s else s)
        p := rfl

theorem appendStep_position (s1 : DataStorage) (p : List Nat) :
    (appendStep s1 p).position_offset = s1.position_offset + 1 := rfl

theorem appendData_position (s : DataStorage) (p : List Nat) :
    (appendData s p).position_offset = s.position_offset + 1 := by
  rw [appendData_decompose]
  split <;> rfl

theorem appendStep_wf_lastInv (s1 : DataStorage) (p : List Nat) (hwf : WfState s1) :
    WfState (appendStep s1 p) ∧ LastInv (s1.position_offset + 1) p (appendStep s1 p) := by
  obtain ⟨hble, hcap⟩ := hwf
  set k := s1.position_offset - s1.base_offset with hk
  set idx0 := if s1.index.length * 12 < (s1.position_offset + 2 - s1.base_offset) * 12 then
      s1.index ++ List.replicate INDEX_EXPANSION_SLOTS (⟨0, 0⟩ : IndexEntry)
    else s1.index with hidx0
  have hidx0len : k + 2 ≤ idx0.length := by
    rw [hidx0]
    split
    · next hc =>
      rw [List.length_append, List.length_replicate, INDEX_EXPANSION_SLOTS]
      omega
    · next hc => omega
  have happ : appendStep s1 p = { s1 with
      data := s1.data ++ (beBytes 4 p.length ++ beBytes 8 s1.position_offset ++ p)
      index := (idx0.set k ⟨s1.data.length, (12 + p.length) % 2 ^ 32⟩).set (k + 1) ⟨0, 0⟩
      position_offset := s1.position_offset + 1 } := by
    simp only [appendStep]
  have hlen2 : (s1.data ++ (beBytes 4 p.length ++ beBytes 8 s1.position_offset ++ p)).length
      - (12 + p.length) = s1.data.length := by
    simp only [List.length_append, beBytes_length]
    omega
  refine ⟨⟨?_, ?_⟩, ?_, ?_, ?_, ?_, ?_⟩
  · rw [happ]
    show s1.base_offset ≤ s1.position_offset + 1
    omega
  · rw [happ]
    show s1.position_offset + 1 - s1.base_offset + 1 ≤
      ((idx0.set k ⟨s1.data.length, (12 + p.length) % 2 ^ 32⟩).set (k + 1) ⟨0, 0⟩).length
    rw [List.length_set, List.length_set]
    omega
  · exact appendStep_position s1 p
  · rw [happ]
    show s1.base_offset < s1.position_offset + 1
    omega
  · rw [happ]
    show ((idx0.set k ⟨s1.data.length, (12 + p.length) % 2 ^ 32⟩).set (k + 1) ⟨0, 0⟩)[k]?
      = some ⟨(s1.data ++ (beBytes 4 p.length ++ beBytes 8 s1.position_offset ++ p)).length
          - (12 + p.length), (12 + p.length) % 2 ^ 32⟩
    rw [hlen2, List.getElem?_set_ne (show k + 1 ≠ k from by omega),
      List.getElem?_set_eq_of_lt _ (show k < idx0.length from by omega)]
  · rw [happ]
    show 12 + p.length
      ≤ (s1.data ++ (beBytes 4 p.length ++ beBytes 8 s1.position_offset ++ p)).length
    simp only [List.length_append, beBytes_length]
    omega
  · rw [happ]
    show (s1.data ++ (beBytes 4 p.length ++ beBytes 8 s1.position_offset ++ p)).drop
        ((s1.data ++ (beBytes 4 p.length ++ beBytes 8 s1.position_offset ++ p)).length
          - (12 + p.length))
      = recordBytes (s1.position_offset + 1 - 1) p
    rw [hlen2, List.drop_left' rfl]
    rfl

theorem rotateState_wf (s : DataStorage) : WfState (rotateState s) := by
  refine ⟨Nat.le_refl _, ?_⟩
  show s.position_offset - s.position_offset + 1
    ≤ (List.replicate INITIAL_INDEX_SLOTS (⟨0, 0⟩ : IndexEntry)).length
  rw [List.length_replicate, INITIAL_INDEX_SLOTS]
  omega

theorem appendData_wf_lastInv (s : DataStorage) (p : List Nat) (h : WfState s) :
    WfState (appendData s p) ∧ LastInv (s.position_offset + 1) p (appendData s p) := by
  rw [appendData_decompose]
  split
  · exact appendStep_wf_lastInv (rotateState s) p (rotateState_wf s)
  · exact appendStep_wf_lastInv s p h

theorem appendList_position (ps : List (List Nat)) :
    ∀ s : DataStorage, (appendList s ps).position_offset = s.position_offset + ps.length := by
  induction ps with
  | nil => intro s; rfl
  | cons p rest ih =>
    intro s
    show (appendList (appendData s p) rest).position_offset = s.position_offset + (p :: rest).length
    rw [ih (appendData s p), appendData_position, List.length_cons]
    omega

theorem appendList_wf (ps : List (List Nat)) :
    ∀ s : DataStorage, WfState s → WfState (appendList s ps) := by
  induction ps with
  | nil => intro s h; exact h
  | cons p rest ih =>
    intro s h
    exact ih (appendData s p) (appendData_wf_lastInv s p h).1

theorem appendList_snoc (s : DataStorage) (qs : List (List Nat)) (p : List Nat) :
    appendList s (qs ++ [p]) = appendData (appendList s qs) p := by
  rw [appendList, List.foldl_append]
  rfl

theorem sendfile_active_eq (s : DataStorage) (o off : Nat)
    (hoff : resolveOffset o s.position_offset = off)
    (hin : s.base_offset ≤ off ∧ off < s.position_offset) :
    sendfile s o = .ok ⟨off, .active, readIndex s.index (off - s.base_offset), s.data.length,
      (if s.pull_max_limit < s.data.length - (readIndex s.index (off - s.base_offset)).start
        then (readIndex s.index (off - s.base_offset)).size
        else s.data.length - (readIndex s.index (off - s.base_offset)).start),
      (s.data.drop (readIndex s.index (off - s.base_offset)).start).take
        (if s.pull_max_limit < s.data.length - (readIndex s.index (off - s.base_offset)).start
          then (readIndex s.index (off - s.base_offset)).size
          else s.data.length - (readIndex s.index (off - s.base_offset)).start)⟩ := by
  simp only [sendfile, hoff]
  rw [if_pos hin]

/-- If a broker satisfies `LastInv n pl` (its last record is record
`n - 1` with payload `pl`, sitting at the tail of the active data
file), then a PULL with requested offset 0 streams exactly that
record's bytes followed by the 4-byte zero frame. -/
theorem sendfile_lastInv {n : Nat} {pl : List Nat} {s : DataStorage}
    (h : LastInv n pl s) (hsz : 12 + pl.length < 2 ^ 32) :
    send_messages_since s 0 = some (recordBytes (n - 1) pl ++ beBytes 4 0) := by
  obtain ⟨hpos, hbn, hslot, hle, hdropeq⟩ := h
  have hoff : resolveOffset 0 s.position_offset = n - 1 := by
    rw [resolveOffset, if_pos ⟨rfl, by omega⟩, hpos]
  have hri : readIndex s.index (n - 1 - s.base_offset)
      = ⟨s.data.length - (12 + pl.length), 12 + pl.length⟩ := by
    rw [readIndex, hslot, Option.getD_some, Nat.mod_eq_of_lt hsz]
  have hsf := sendfile_active_eq s 0 (n - 1) hoff ⟨by omega, by omega⟩
  rw [hri] at hsf
  have hstart : (⟨s.data.length - (12 + pl.length), 12 + pl.length⟩ : IndexEntry).start
      = s.data.length - (12 + pl.length) := rfl
  have hsz2 : (if s.pull_max_limit < s.data.length -
        (⟨s.data.length - (12 + pl.length), 12 + pl.length⟩ : IndexEntry).start
      then (⟨s.data.length - (12 + pl.length), 12 + pl.length⟩ : IndexEntry).size
      else s.data.length -
        (⟨s.data.length - (12 + pl.length), 12 + pl.length⟩ : IndexEntry).start)
      = 12 + pl.length := by
    rw [hstart, show s.data.length - (s.data.length - (12 + pl.length)) = 12 + pl.length
      from by omega]
    exact ite_self _
  rw [hsz2] at hsf
  have hbytes : (s.data.drop
        (⟨s.data.length - (12 + pl.length), 12 + pl.length⟩ : IndexEntry).start).take
        (12 + pl.length) = recordBytes (n - 1) pl := by
    rw [hstart, hdropeq,
      List.take_of_length_le (le_of_eq (recordBytes_length (n - 1) pl))]
  rw [hbytes] at hsf
  rw [send_messages_since, hsf]

/-- Claim C1 as amended: pushing a non-empty sequence of non-empty
payloads (each below the `u32` length range) on a fresh broker — with
or without segment rotations along the way — a subsequent PULL with
requested offset `0` does not stream the whole log: because `0` means
"latest", it streams exactly the bytes of the final record, which
parse (via the 12-byte big-endian record headers) to exactly the last
payload, once, followed by the handler's terminating 4-byte zero
frame. -/
theorem pull_zero_returns_latest (ps : List (List Nat)) (M L C : Nat) (hne : ps ≠ [])
    (hsizes : ∀ p ∈ ps, 0 < p.length ∧ 12 + p.length < 2 ^ 32) :
    send_messages_since (appendList (freshStorage M L C) ps) 0 =
      some (recordBytes (ps.length - 1) (ps.getLast hne) ++ beBytes 4 0) ∧
    parsePayloads (recordBytes (ps.length - 1) (ps.getLast hne) ++ beBytes 4 0) =
      some [ps.getLast hne] := by
  have hpl := hsizes _ (List.getLast_mem hne)
  have hlenps : 0 < ps.length := List.length_pos.mpr hne
  have hsplit : ps.dropLast ++ [ps.getLast hne] = ps := List.dropLast_append_getLast hne
  have hqlen : ps.dropLast.length = ps.length - 1 := by
    have h := congrArg List.length hsplit
    rw [List.length_append, List.length_cons, List.length_nil] at h
    omega
  have hwf0 : WfState (freshStorage M L C) := by
    refine ⟨Nat.le_refl _, ?_⟩
    show 0 - 0 + 1 ≤ (List.replicate INITIAL_INDEX_SLOTS (⟨0, 0⟩ : IndexEntry)).length
    rw [List.length_replicate, INITIAL_INDEX_SLOTS]
    omega
  have hwfq := appendList_wf ps.dropLast (freshStorage M L C) hwf0
  have hstep := appendData_wf_lastInv (appendList (freshStorage M L C) ps.dropLast)
    (ps.getLast hne) hwfq
  have hposq : (appendList (freshStorage M L C) ps.dropLast).position_offset
      = ps.length - 1 := by
    rw [appendList_position]
    rw [show (freshStorage M L C).position_offset = 0 from rfl, Nat.zero_add, hqlen]
  rw [hposq] at hstep
  have hli : LastInv ps.length (ps.getLast hne)
      (appendData (appendList (freshStorage M L C) ps.dropLast) (ps.getLast hne)) := by
    have h := hstep.2
    rw [show ps.length - 1 + 1 = ps.length from by omega] at h
    exact h
  have happ : appendList (freshStorage M L C) ps
      = appendData (appendList (freshStorage M L C) ps.dropLast) (ps.getLast hne) := by
    conv_lhs => rw [← hsplit]
    exact appendList_snoc _ _ _
  rw [happ]
  exact ⟨sendfile_lastInv hli hpl.2, parse_single_record _ _ (by omega) (by omega)⟩

set_option maxRecDepth 100000 in
/-- Claim C1 counterexample: pushing `b"a"`, `b"bb"`, `b"ccc"` on a
fresh broker, a PULL with requested offset 0 does not stream all three
payloads — the stream parses to exactly `[b"ccc"]` (the latest record),
because `sendfile` resolves requested offset 0 to `position - 1`. -/
theorem pull_zero_not_all_payloads :
    send_messages_since st3 0 = some (recordBytes 2 [99, 99, 99] ++ beBytes 4 0) ∧
    parsePayloads ((send_messages_since st3 0).getD []) = some [[99, 99, 99]] ∧
    parsePayloads ((send_messages_since st3 0).getD [])
      ≠ some [[97], [98, 98], [99, 99, 99]] := by
  refine ⟨rfl, rfl, by decide⟩

set_option maxRecDepth 100000 in
/-- Witness for C1 (amended) at the S2 payload sequence. -/
theorem pull_zero_returns_latest_witness :
    send_messages_since st3 0 =
      some (recordBytes 2
        (([[97], [98, 98], [99, 99, 99]] : List (List Nat)).getLast (by decide))
        ++ beBytes 4 0) ∧
    parsePayloads (recordBytes 2
        (([[97], [98, 98], [99, 99, 99]] : List (List Nat)).getLast (by decide))
        ++ beBytes 4 0)
      = some [([[97], [98, 98], [99, 99, 99]] : List (List Nat)).getLast (by decide)] :=
  pull_zero_returns_latest [[97], [98, 98], [99, 99, 99]] 1000000 1000000 10 (by decide)
    (by decide)

end SonicrabMQ
